import Mathlib

/-!
Verification of the patent-categorization pipeline in `app.py`.

The Python source is shallowly embedded: strings are Lean `String`s,
Python's insertion-ordered `dict` is an association list updated in place,
the retry loop of `summarize_patent` is a fuel-indexed recursion recording
the attempts made and the total backoff slept, and the Streamlit `main`
loop's export assembly is an explicit fold over (record, parsed) pairs.
-/

/-! ### Python string primitives -/

/-- Drop leading whitespace characters from a character list
(the one-sided core of Python's `str.strip()`). -/
def dropWs : List Char → List Char
  | [] => []
  | c :: rest => if c.isWhitespace then dropWs rest else c :: rest

/-- Python's `str.strip()`: remove leading and trailing whitespace. -/
def pyStrip (s : String) : String :=
  String.mk ((dropWs (dropWs s.data).reverse).reverse)

/-- Worker for `splitlines`: accumulates the current line (reversed). -/
def splitlinesAux : List Char → List Char → List String
  | [], [] => []
  | [], acc => [String.mk acc.reverse]
  | '\n' :: rest, acc => String.mk acc.reverse :: splitlinesAux rest []
  | '\r' :: '\n' :: rest, acc => String.mk acc.reverse :: splitlinesAux rest []
  | '\r' :: rest, acc => String.mk acc.reverse :: splitlinesAux rest []
  | c :: rest, acc => splitlinesAux rest (c :: acc)

/-- Python's `str.splitlines()` (over the line terminators `\n`, `\r\n`, `\r`):
no trailing empty line is produced for a trailing terminator. -/
def splitlines (s : String) : List String :=
  splitlinesAux s.data []

/-- Worker for `splitFirstColon`: scan for the first `:`. -/
def splitFirstColonAux : List Char → List Char → Option (String × String)
  | [], _ => none
  | c :: rest, acc =>
    if c = ':' then some (String.mk acc.reverse, String.mk rest)
    else splitFirstColonAux rest (c :: acc)

/-- Python's `line.split(":", 1)` fused with the `":" in line` test:
`some (before, after)` at the first colon, `none` if the line has no colon. -/
def splitFirstColon (line : String) : Option (String × String) :=
  splitFirstColonAux line.data []

/-! ### Python `dict` as an insertion-ordered association list -/

/-- `FieldMap`: label-to-value mapping with Python-`dict` insertion order. -/
abbrev FieldMap := List (String × String)

/-- Python's `d[k] = v` on an insertion-ordered dict: replace the value in
place when the key is present, else append the pair at the end. -/
def dictInsert : FieldMap → String → String → FieldMap
  | [], k, v => [(k, v)]
  | p :: rest, k, v => if p.1 = k then (k, v) :: rest else p :: dictInsert rest k v

/-- Python's `d.get(k)` / `d[k]` as an option: value at the first entry
whose key is `k`. -/
def dictLookup (m : FieldMap) (k : String) : Option String :=
  (m.find? (fun p => p.1 = k)).map Prod.snd

/-- Python's `d.update(adds)`: insert every pair of `adds`, in order. -/
def dictUpdate (m : FieldMap) (adds : FieldMap) : FieldMap :=
  adds.foldl (fun acc p => dictInsert acc p.1 p.2) m

/-! ### The dynamic response parser (`parse_dynamic_summary`, app.py:89-96) -/

/-- `parse_dynamic_summary`: for every line of the response that contains a
colon, split at the first colon and store `strip(key) ↦ strip(value)` in the
(insertion-ordered) dict; lines without a colon are skipped. -/
def parse_dynamic_summary (summary : String) : FieldMap :=
  (splitlines summary).foldl
    (fun parsed line =>
      match splitFirstColon line with
      | some kv => dictInsert parsed (pyStrip kv.1) (pyStrip kv.2)
      | none => parsed)
    []

example : parse_dynamic_summary "Industry Domain: Software\nTechnology Area: AI\n" =
    [("Industry Domain", "Software"), ("Technology Area", "AI")] := by rfl

example : parse_dynamic_summary "garbage no colon" = [] := by rfl

example : parse_dynamic_summary "A: 1\nB: 2\nA: 3" = [("A", "3"), ("B", "2")] := by rfl

/-! ### Records and the prompt builder (`build_final_prompt`, app.py:55-64) -/

/-- One patent record, as the dict produced by `get_patents_by_numbers`.
Fields are optional so that `patent.get(key, '')` on a malformed record
(a missing key) is representable. -/
structure Patent where
  patent_Number : Option String
  title : Option String
  abstract : Option String
  claims : Option String
  description : Option String
deriving DecidableEq

/-- Python's `patent.get(key, '')`: the field's value, or `""` when absent. -/
def pget (o : Option String) : String := o.getD ""

/-- `build_final_prompt`: the f-string of app.py lines 56-64, verbatim —
a leading newline, the instruction prompt, then the five labeled record
fields, one per line, and a trailing newline. -/
def build_final_prompt (user_prompt : String) (patent : Patent) : String :=
  "\n" ++ user_prompt ++ "\n\nPatent Number: " ++ pget patent.patent_Number ++
    "\nTitle: " ++ pget patent.title ++
    "\nAbstract: " ++ pget patent.abstract ++
    "\nClaims: " ++ pget patent.claims ++
    "\nDescription: " ++ pget patent.description ++ "\n"

/-! ### The completion client (`summarize_patent`, app.py:66-87)

The remote call is abstracted as a stub `Nat → AttemptResult` giving the
outcome of the attempt with each index; the loop `for attempt in range(5)`
becomes a recursion on the remaining iteration count, recording how many
attempts ran, the total `time.sleep` duration, and the outcome. -/

/-- Outcome of one `client.chat.completions.create` call: a successful
response text, an exception whose text contains `rate_limit`, or any other
exception. -/
inductive AttemptResult where
  | success (text : String)
  | transientRateLimit
  | otherError
deriving DecidableEq

/-- How `summarize_patent` ends: returning a stripped response, falling off
the retry loop (it then returns `""`), or re-raising a non-transient error. -/
inductive SummarizeOutcome where
  | ok (text : String)
  | exhausted
  | raised
deriving DecidableEq

/-- Observable trace of one `summarize_patent` call: number of attempts
made, total units slept in backoff, and the outcome. -/
structure RetryTrace where
  attemptsMade : Nat
  totalSleep : Nat
  result : SummarizeOutcome
deriving DecidableEq

/-- The retry loop body from `attempt` onwards, with `remaining` iterations
left (app.py:69-87): success returns the stripped text; a rate-limit
exception sleeps `2 ^ attempt` and continues; any other exception is
re-raised; falling off the loop is exhaustion. -/
def summarizeFrom (stub : Nat → AttemptResult) : Nat → Nat → RetryTrace
  | _, 0 => ⟨0, 0, .exhausted⟩
  | attempt, remaining + 1 =>
    match stub attempt with
    | .success t => ⟨1, 0, .ok (pyStrip t)⟩
    | .otherError => ⟨1, 0, .raised⟩
    | .transientRateLimit =>
      let rest := summarizeFrom stub (attempt + 1) remaining
      ⟨rest.attemptsMade + 1, 2 ^ attempt + rest.totalSleep, rest.result⟩

/-- `summarize_patent` (app.py:66-87): build the final prompt from the
record and instruction prompt, then run the retry loop
`for attempt in range(5)` against the remote endpoint, modelled as a
function from the sent prompt and the attempt index to that attempt's
outcome. -/
def summarize_patent (endpoint : String → Nat → AttemptResult)
    (patent : Patent) (instruction_prompt : String) : RetryTrace :=
  summarizeFrom (endpoint (build_final_prompt instruction_prompt patent)) 0 5

/-- The value `summarize_patent` hands its caller: the response text on
success, `""` on exhaustion, and an exception (`Except.error`) when a
non-transient error is re-raised. -/
def summarizeReturn (endpoint : String → Nat → AttemptResult)
    (patent : Patent) (instruction_prompt : String) : Except Unit String :=
  match (summarize_patent endpoint patent instruction_prompt).result with
  | .ok t => .ok t
  | .exhausted => .ok ""
  | .raised => .error ()

/-! ### Export assembly (`main`, app.py:144-177) -/

/-- The `row_data` dict literal of app.py:164-168, before `update(parsed)`. -/
def baseRow (p : Patent) : FieldMap :=
  [("Patent Number", pget p.patent_Number),
   ("Title", pget p.title),
   ("Abstract", pget p.abstract)]

/-- One step of `all_fields` discovery (app.py:156-157):
`if k not in all_fields: all_fields.append(k)`. -/
def seenInsert (fs : List String) (k : String) : List String :=
  if k ∈ fs then fs else fs ++ [k]

/-- The `for k, v in parsed.items()` loop's effect on `all_fields`. -/
def addFields (fs : List String) (parsed : FieldMap) : List String :=
  parsed.foldl (fun acc p => seenInsert acc p.1) fs

/-- First-appearance deduplication of a key sequence (the specification's
"first-seen order across all rows"). -/
def firstSeen (ks : List String) : List String :=
  ks.foldl seenInsert []

/-- Accumulated loop state: `export_data` (the rows) and `all_fields`. -/
structure BatchState where
  export_data : List FieldMap
  all_fields : List String
deriving DecidableEq

/-- The per-record body of the loop at app.py:146-170, given the already
parsed FieldMap: extend `all_fields` with the parsed keys in order, and
append `row_data.update(parsed)` to `export_data`. -/
def addRow (st : BatchState) (p : Patent) (parsed : FieldMap) : BatchState :=
  ⟨st.export_data ++ [dictUpdate (baseRow p) parsed], addFields st.all_fields parsed⟩

/-- The whole loop over a list of (record, parsed FieldMap) pairs. -/
def processBatch (rows : List (Patent × FieldMap)) : BatchState :=
  rows.foldl (fun st pr => addRow st pr.1 pr.2) ⟨[], []⟩

/-- `ordered_columns` (app.py:174). -/
def ordered_columns (all_fields : List String) : List String :=
  ["Patent Number", "Title", "Abstract"] ++ all_fields

/-- The column set of `pd.DataFrame(export_data)`: the union of the rows'
keys, in first-seen order. -/
def dfColumns (rows : List FieldMap) : List String :=
  firstSeen (rows.map (fun r => r.map Prod.fst)).flatten

/-- The reordering at app.py:177:
`df_export[[col for col in ordered_columns if col in df_export.columns]]`. -/
def export_columns (st : BatchState) : List String :=
  (ordered_columns st.all_fields).filter (fun c => c ∈ dfColumns st.export_data)

/-- The cell of a finalized row at a column: `some` when the row's dict has
the key, `none` for the empty (NaN) cell of a column the row never set. -/
def cellValue (row : FieldMap) (col : String) : Option String :=
  dictLookup row col

/-- The batch loop of app.py:146-170 driven by per-record completion stubs:
each record's summary comes from `summarize_patent`; a re-raised
non-transient exception escapes the loop (`Except.error`), any other
outcome is parsed (exhaustion yields `""`) and the loop continues. -/
def runBatch (endpoint : String → Nat → AttemptResult) (instruction : String) :
    List Patent → BatchState → Except Unit BatchState
  | [], st => .ok st
  | p :: rest, st =>
    match summarizeReturn endpoint p instruction with
    | .error e => .error e
    | .ok text => runBatch endpoint instruction rest (addRow st p (parse_dynamic_summary text))

/-! ### The fixed-schema parsing policy (spec §4.3; absent from src/app.py) -/

/-- Case normalization for the fixed policy's case-insensitive matching. -/
def lowerStr (s : String) : String := String.mk (s.data.map Char.toLower)

/-- The four hard-coded labels of the fixed-schema policy. -/
def fixedLabels : List String :=
  ["Industry Domain", "Technology Area", "Sub-Technology Area", "Keywords"]

/-- Does this line match `Label: value` for the given label,
case-insensitively? If so, the trimmed value on the rest of the line. -/
def lineValueFor (lab line : String) : Option String :=
  match splitFirstColon line with
  | some kv => if lowerStr (pyStrip kv.1) = lowerStr lab then some (pyStrip kv.2) else none
  | none => none

/-- Modelled from the spec: the fixed-schema parsing policy of §4.3 has no
implementation under src/ (app.py only contains the dynamic policy), so it
is modelled from the spec's words: scan the response line-by-line for each
of the four hard-coded labels with case-insensitive `Label: value`
matching; the value is the trimmed text after the delimiter on that line;
an unmatched label maps to the empty string. -/
def parse_fixed_summary (summary : String) : FieldMap :=
  fixedLabels.map (fun lab =>
    (lab, (((splitlines summary).filterMap (lineValueFor lab)).head?).getD ""))

/-! ### Spec-side reformulation of the dynamic policy (for refinement) -/

/-- Spec-side description of the dynamic policy's per-line extraction
(§4.3): each line containing the delimiter contributes the pair split at
the first occurrence, both sides trimmed, in line order; lines without the
delimiter contribute nothing. -/
def linePairs (s : String) : List (String × String) :=
  (splitlines s).filterMap
    (fun line => (splitFirstColon line).map (fun kv => (pyStrip kv.1, pyStrip kv.2)))

/-- The latest value a pair sequence assigns to a key (last-write-wins). -/
def lastWins (ps : List (String × String)) (k : String) : Option String :=
  (ps.reverse.find? (fun p => p.1 = k)).map Prod.snd

/-! ### Lemmas: the ordered-dict model -/

theorem dictLookup_nil (k : String) : dictLookup [] k = none := rfl

theorem dictLookup_cons (q : String × String) (m : FieldMap) (k : String) :
    dictLookup (q :: m) k = if q.1 = k then some q.2 else dictLookup m k := by
  by_cases h : q.1 = k <;> simp [dictLookup, List.find?_cons, h]

theorem dictLookup_dictInsert (m : FieldMap) (k v k2 : String) :
    dictLookup (dictInsert m k v) k2 = if k2 = k then some v else dictLookup m k2 := by
  induction m with
  | nil =>
    by_cases h : k2 = k
    · simp [dictInsert, dictLookup_cons, dictLookup_nil, h]
    · have h2 : ¬k = k2 := fun hh => h (Eq.symm hh)
      simp [dictInsert, dictLookup_cons, dictLookup_nil, h, h2]
  | cons p rest ih =>
    by_cases hp : p.1 = k
    · by_cases h2 : k2 = k
      · simp [dictInsert, hp, dictLookup_cons, h2]
      · have h3 : ¬k = k2 := fun hh => h2 (Eq.symm hh)
        simp [dictInsert, hp, dictLookup_cons, h2, h3]
    · by_cases hq : p.1 = k2
      · have hk2 : ¬k2 = k := fun hh => hp (hq.trans hh)
        simp [dictInsert, hp, dictLookup_cons, hq, hk2]
      · simp [dictInsert, hp, dictLookup_cons, hq, ih]

theorem keys_dictInsert (m : FieldMap) (k v : String) :
    (dictInsert m k v).map Prod.fst = seenInsert (m.map Prod.fst) k := by
  induction m with
  | nil => simp [dictInsert, seenInsert]
  | cons p rest ih =>
    by_cases hp : p.1 = k
    · simp [dictInsert, hp, seenInsert]
    · have hne : ¬k = p.1 := fun hh => hp (Eq.symm hh)
      by_cases hk : k ∈ rest.map Prod.fst <;>
        simp [dictInsert, hp, seenInsert, ih, hne, hk]

theorem keys_dictUpdate (m ps : FieldMap) :
    (dictUpdate m ps).map Prod.fst =
      ps.foldl (fun fs p => seenInsert fs p.1) (m.map Prod.fst) := by
  induction ps generalizing m with
  | nil => rfl
  | cons p rest ih =>
    show (dictUpdate (dictInsert m p.1 p.2) rest).map Prod.fst = _
    rw [ih, keys_dictInsert]
    rfl

theorem dictLookup_dictUpdate (m ps : FieldMap) (k : String) :
    dictLookup (dictUpdate m ps) k = Option.or (lastWins ps k) (dictLookup m k) := by
  induction ps generalizing m with
  | nil => simp [dictUpdate, lastWins, Option.none_or]
  | cons p rest ih =>
    show dictLookup (dictUpdate (dictInsert m p.1 p.2) rest) k = _
    rw [ih, dictLookup_dictInsert]
    unfold lastWins
    rw [List.reverse_cons, List.find?_append]
    rcases hfind : rest.reverse.find? (fun q => decide (q.1 = k)) with _ | q
    · rw [hfind]
      by_cases hpk : p.1 = k
      · simp [Option.or, List.find?_cons, hpk]
      · have hkp : ¬k = p.1 := fun hh => hpk (Eq.symm hh)
        simp [Option.or, List.find?_cons, hpk, hkp]
    · rw [hfind]
      simp [Option.or]

theorem mem_dictInsert (m : FieldMap) (k v : String) (q : String × String)
    (h : q ∈ dictInsert m k v) : q ∈ m ∨ q = (k, v) := by
  induction m with
  | nil => simp [dictInsert] at h; simp [h]
  | cons p rest ih =>
    by_cases hp : p.1 = k
    · simp [dictInsert, hp] at h
      rcases h with h | h
      · right; simp [h]
      · left; simp [h]
    · simp [dictInsert, hp] at h
      rcases h with h | h
      · left; simp [h]
      · rcases ih h with h2 | h2
        · left; simp [h2]
        · right; exact h2

theorem mem_dictUpdate (m ps : FieldMap) (q : String × String)
    (h : q ∈ dictUpdate m ps) : q ∈ m ∨ q ∈ ps := by
  induction ps generalizing m with
  | nil => exact Or.inl h
  | cons p rest ih =>
    have h2 : q ∈ dictUpdate (dictInsert m p.1 p.2) rest := h
    rcases ih _ h2 with h3 | h3
    · rcases mem_dictInsert _ _ _ _ h3 with h4 | h4
      · exact Or.inl h4
      · right; simp [h4]
    · right; simp [h3]

/-! ### Lemmas: field discovery (`seenInsert`, `addFields`, `firstSeen`) -/

theorem mem_seenInsert (fs : List String) (k x : String) :
    x ∈ seenInsert fs k ↔ x ∈ fs ∨ x = k := by
  unfold seenInsert
  by_cases h : k ∈ fs
  · simp only [if_pos h]
    constructor
    · exact Or.inl
    · rintro (hx | rfl)
      · exact hx
      · exact h
  · simp [if_neg h]

theorem nodup_seenInsert (fs : List String) (k : String) (h : fs.Nodup) :
    (seenInsert fs k).Nodup := by
  unfold seenInsert
  by_cases hk : k ∈ fs
  · simpa [hk] using h
  · simp [hk, List.nodup_append, h, List.Disjoint]
    intro a ha hak
    exact hk (hak ▸ ha)

theorem mem_foldl_seenInsert (ks : List String) :
    ∀ init x, x ∈ ks.foldl seenInsert init ↔ x ∈ init ∨ x ∈ ks := by
  induction ks with
  | nil => intro init x; simp
  | cons k rest ih =>
    intro init x
    rw [List.foldl_cons, ih, mem_seenInsert]
    simp only [List.mem_cons]
    tauto

theorem nodup_foldl_seenInsert (ks : List String) :
    ∀ init, init.Nodup → (ks.foldl seenInsert init).Nodup := by
  induction ks with
  | nil => intro init h; exact h
  | cons k rest ih =>
    intro init h
    exact ih _ (nodup_seenInsert _ _ h)

theorem mem_firstSeen (ks : List String) (x : String) : x ∈ firstSeen ks ↔ x ∈ ks := by
  unfold firstSeen
  rw [mem_foldl_seenInsert]
  simp

theorem nodup_firstSeen (ks : List String) : (firstSeen ks).Nodup :=
  nodup_foldl_seenInsert ks [] List.nodup_nil

theorem addFields_eq (fs : List String) (parsed : FieldMap) :
    addFields fs parsed = (parsed.map Prod.fst).foldl seenInsert fs := by
  rw [addFields, List.foldl_map]

theorem mem_addFields (fs : List String) (parsed : FieldMap) (x : String) :
    x ∈ addFields fs parsed ↔ x ∈ fs ∨ x ∈ parsed.map Prod.fst := by
  rw [addFields_eq, mem_foldl_seenInsert]

theorem nodup_addFields (fs : List String) (parsed : FieldMap) (h : fs.Nodup) :
    (addFields fs parsed).Nodup := by
  rw [addFields_eq]
  exact nodup_foldl_seenInsert _ _ h

/-! ### Lemmas: characterizing `parse_dynamic_summary` -/

theorem foldl_parse_step (lines : List String) : ∀ m : FieldMap,
    lines.foldl
      (fun parsed line =>
        match splitFirstColon line with
        | some kv => dictInsert parsed (pyStrip kv.1) (pyStrip kv.2)
        | none => parsed) m
    = dictUpdate m (lines.filterMap
        (fun line => (splitFirstColon line).map (fun kv => (pyStrip kv.1, pyStrip kv.2)))) := by
  induction lines with
  | nil => intro m; rfl
  | cons line rest ih =>
    intro m
    rcases h : splitFirstColon line with _ | kv <;>
      simp [List.foldl_cons, List.filterMap_cons, h, ih, dictUpdate]

/-- `parse_dynamic_summary` is the dict built by inserting, in order, the
trimmed pair of every delimiter-carrying line. -/
theorem parse_eq_dictUpdate_linePairs (s : String) :
    parse_dynamic_summary s = dictUpdate [] (linePairs s) := by
  unfold parse_dynamic_summary linePairs
  exact foldl_parse_step (splitlines s) []

/-- The parsed field names are the labels of the delimiter-carrying lines,
deduplicated in first-appearance order. -/
theorem keys_parse (s : String) :
    (parse_dynamic_summary s).map Prod.fst = firstSeen ((linePairs s).map Prod.fst) := by
  rw [parse_eq_dictUpdate_linePairs, keys_dictUpdate]
  unfold firstSeen
  rw [List.foldl_map]
  rfl

/-- The parsed value of a label is the value on the last line carrying that
label (last-write-wins). -/
theorem lookup_parse (s k : String) :
    dictLookup (parse_dynamic_summary s) k = lastWins (linePairs s) k := by
  rw [parse_eq_dictUpdate_linePairs, dictLookup_dictUpdate, dictLookup_nil, Option.or_none]

theorem mem_parse (s : String) (q : String × String) (h : q ∈ parse_dynamic_summary s) :
    q ∈ linePairs s := by
  rw [parse_eq_dictUpdate_linePairs] at h
  rcases mem_dictUpdate _ _ _ h with h2 | h2
  · simp at h2
  · exact h2

/-! ### Lemmas: `pyStrip` produces stripped strings -/

theorem dropWs_dropWs (l : List Char) : dropWs (dropWs l) = dropWs l := by
  induction l with
  | nil => rfl
  | cons c rest ih =>
    by_cases h : c.isWhitespace
    · simp [dropWs, h, ih]
    · simp [dropWs, h]

theorem head?_dropWs (l : List Char) :
    ∀ c, (dropWs l).head? = some c → ¬c.isWhitespace := by
  induction l with
  | nil => intro c h; simp [dropWs] at h
  | cons d rest ih =>
    intro c h
    by_cases hd : d.isWhitespace
    · exact ih c (by simpa [dropWs, hd] using h)
    · simp [dropWs, hd] at h
      exact h ▸ hd

theorem dropWs_eq_self_of_head (l : List Char)
    (h : ∀ c, l.head? = some c → ¬c.isWhitespace) : dropWs l = l := by
  cases l with
  | nil => rfl
  | cons c rest => simp [dropWs, h c rfl]

theorem dropWs_suffix (l : List Char) : ∃ pre, l = pre ++ dropWs l := by
  induction l with
  | nil => exact ⟨[], rfl⟩
  | cons c rest ih =>
    by_cases h : c.isWhitespace
    · rcases ih with ⟨pre, hpre⟩
      exact ⟨c :: pre, by simp [dropWs, h]; exact hpre⟩
    · exact ⟨[], by simp [dropWs, h]⟩

/-- Python's `strip` is idempotent: its output has no leading or trailing
whitespace left to remove. -/
theorem pyStrip_idem (s : String) : pyStrip (pyStrip s) = pyStrip s := by
  apply String.ext
  have hL : (pyStrip s).data = (dropWs ((dropWs s.data).reverse)).reverse := rfl
  have hLL : (pyStrip (pyStrip s)).data
      = (dropWs ((dropWs (pyStrip s).data).reverse)).reverse := rfl
  rw [hLL, hL]
  have hstep1 : dropWs ((dropWs ((dropWs s.data).reverse)).reverse)
      = (dropWs ((dropWs s.data).reverse)).reverse := by
    apply dropWs_eq_self_of_head
    intro c hc
    rw [List.head?_reverse] at hc
    rcases dropWs_suffix ((dropWs s.data).reverse) with ⟨pre, hpre⟩
    rcases hdrop : dropWs ((dropWs s.data).reverse) with _ | ⟨d, tl⟩
    · rw [hdrop] at hc; simp at hc
    · have hlast : (pre ++ dropWs ((dropWs s.data).reverse)).getLast?
          = (dropWs ((dropWs s.data).reverse)).getLast? := by
        rw [List.getLast?_append, hdrop]
        rcases h2 : (d :: tl).getLast? with _ | x
        · simp at h2
        · simp [Option.or]
      rw [← hpre, List.getLast?_reverse] at hlast
      rw [← hlast] at hc
      exact head?_dropWs s.data c hc
  rw [hstep1, List.reverse_reverse, dropWs_dropWs]

theorem mem_linePairs_stripped (s : String) (q : String × String) (h : q ∈ linePairs s) :
    ∃ a b, q = (pyStrip a, pyStrip b) := by
  unfold linePairs at h
  rw [List.mem_filterMap] at h
  rcases h with ⟨line, _, hline⟩
  rcases hsplit : splitFirstColon line with _ | kv
  · rw [hsplit] at hline; simp at hline
  · rw [hsplit] at hline
    simp at hline
    exact ⟨kv.1, kv.2, hline.symm⟩

/-- Every label and value produced by the dynamic parser is already
stripped (stripping it again changes nothing). -/
theorem parse_values_stripped (s k v : String)
    (h : (k, v) ∈ parse_dynamic_summary s) : pyStrip k = k ∧ pyStrip v = v := by
  rcases mem_linePairs_stripped s _ (mem_parse s _ h) with ⟨a, b, hab⟩
  have hk : k = pyStrip a := congrArg Prod.fst hab
  have hv : v = pyStrip b := congrArg Prod.snd hab
  rw [hk, hv]
  exact ⟨pyStrip_idem a, pyStrip_idem b⟩

/-! ### Lemmas: degradation when the expected structure is absent -/

theorem splitFirstColonAux_eq_none (l : List Char) :
    ∀ acc, (∀ c ∈ l, c ≠ ':') → splitFirstColonAux l acc = none := by
  induction l with
  | nil => intro acc _; rfl
  | cons c rest ih =>
    intro acc h
    have hc : c ≠ ':' := h c (by simp)
    have hrest : ∀ d ∈ rest, d ≠ ':' := fun d hd => h d (by simp [hd])
    rw [show splitFirstColonAux (c :: rest) acc = splitFirstColonAux rest (c :: acc) by
      simp [splitFirstColonAux, hc]]
    exact ih _ hrest

theorem splitFirstColon_eq_none (line : String)
    (h : ∀ c ∈ line.data, c ≠ ':') : splitFirstColon line = none :=
  splitFirstColonAux_eq_none line.data [] h

/-- Every character of every line `splitlines` produces comes from the
input (or the accumulator). -/
theorem splitlinesAux_chars (l acc : List Char) :
    ∀ line ∈ splitlinesAux l acc, ∀ c ∈ line.data, c ∈ l ∨ c ∈ acc := by
  induction l, acc using splitlinesAux.induct with
  | case1 =>
    intro line hline
    simp [splitlinesAux] at hline
  | case2 acc hne =>
    intro line hline c hc
    rcases acc with _ | ⟨a, as⟩
    · exact absurd rfl hne
    · rw [show splitlinesAux [] (a :: as) = [String.mk ((a :: as).reverse)] from rfl] at hline
      simp at hline
      subst hline
      right
      have hc2 : c ∈ as.reverse ++ [a] := hc
      simp at hc2
      simp only [List.mem_cons]
      tauto
  | case3 rest acc ih =>
    intro line hline c hc
    rw [show splitlinesAux ('\n' :: rest) acc
        = String.mk acc.reverse :: splitlinesAux rest [] from rfl] at hline
    rcases List.mem_cons.mp hline with hl | hl
    · subst hl; right; simpa using hc
    · rcases ih line hl c hc with h2 | h2
      · left; simp [h2]
      · simp at h2
  | case4 rest acc ih =>
    intro line hline c hc
    rw [show splitlinesAux ('\x0d' :: '\n' :: rest) acc
        = String.mk acc.reverse :: splitlinesAux rest [] from rfl] at hline
    rcases List.mem_cons.mp hline with hl | hl
    · subst hl; right; simpa using hc
    · rcases ih line hl c hc with h2 | h2
      · left; simp [h2]
      · simp at h2
  | case5 rest acc hguard ih =>
    intro line hline c hc
    have hunfold : splitlinesAux ('\x0d' :: rest) acc
        = String.mk acc.reverse :: splitlinesAux rest [] := by
      rcases rest with _ | ⟨d, rest2⟩
      · rfl
      · by_cases hd : d = '\n'
        · exact (hguard rest2 (by rw [hd])).elim
        · simp [splitlinesAux, hd]
    rw [hunfold] at hline
    rcases List.mem_cons.mp hline with hl | hl
    · subst hl; right; simpa using hc
    · rcases ih line hl c hc with h2 | h2
      · left; simp [h2]
      · simp at h2
  | case6 c0 rest acc hn hrn hr ih =>
    intro line hline c hc
    have hunfold : splitlinesAux (c0 :: rest) acc = splitlinesAux rest (c0 :: acc) := by
      have hn2 : c0 ≠ '\n' := fun hh => hn hh
      have hr2 : c0 ≠ '\x0d' := fun hh => hr hh
      simp [splitlinesAux, hn2, hr2]
    rw [hunfold] at hline
    rcases ih line hline c hc with h2 | h2
    · left; simp [h2]
    · rcases List.mem_cons.mp h2 with h3 | h3
      · left; simp [h3]
      · right; exact h3

theorem splitlines_chars (s : String) :
    ∀ line ∈ splitlines s, ∀ c ∈ line.data, c ∈ s.data := by
  intro line hline c hc
  rcases splitlinesAux_chars s.data [] line hline c hc with h | h
  · exact h
  · simp at h

/-- A response with no delimiter anywhere parses to the empty FieldMap. -/
theorem parse_of_no_colon (s : String) (h : ∀ c ∈ s.data, c ≠ ':') :
    parse_dynamic_summary s = [] := by
  rw [parse_eq_dictUpdate_linePairs]
  have hlp : linePairs s = [] := by
    unfold linePairs
    rw [List.filterMap_eq_nil_iff]
    intro line hline
    rw [splitFirstColon_eq_none line
      (fun c hc => h c (splitlines_chars s line hline c hc))]
    rfl
  rw [hlp]
  rfl

/-! ### Lemmas: the retry loop -/

theorem summarizeFrom_zero (stub : Nat → AttemptResult) (attempt : Nat) :
    summarizeFrom stub attempt 0 = ⟨0, 0, .exhausted⟩ := rfl

theorem summarizeFrom_succ (stub : Nat → AttemptResult) (attempt remaining : Nat) :
    summarizeFrom stub attempt (remaining + 1) =
      match stub attempt with
      | .success t => ⟨1, 0, .ok (pyStrip t)⟩
      | .otherError => ⟨1, 0, .raised⟩
      | .transientRateLimit =>
        let rest := summarizeFrom stub (attempt + 1) remaining
        ⟨rest.attemptsMade + 1, 2 ^ attempt + rest.totalSleep, rest.result⟩ := rfl

/-- Backoff arithmetic: one more doubling step. -/
theorem backoff_step (a m : Nat) :
    2 ^ a + 2 ^ (a + 1) * (2 ^ m - 1) = 2 ^ a * (2 ^ (m + 1) - 1) := by
  obtain ⟨c, hc⟩ : ∃ c, 2 ^ m = c + 1 :=
    ⟨2 ^ m - 1, by have := Nat.one_le_two_pow (n := m); omega⟩
  rw [pow_succ, pow_succ, hc]
  rw [show c + 1 - 1 = c by omega, show (c + 1) * 2 - 1 = 2 * c + 1 by omega]
  ring

/-- If every attempt from `attempt` on fails transiently, the loop runs all
`n` remaining iterations, sleeps `2^attempt + ... + 2^(attempt+n-1)` (in
closed form `2^attempt * (2^n - 1)`), and exhausts. -/
theorem summarizeFrom_all_transient (stub : Nat → AttemptResult) :
    ∀ (n attempt : Nat), (∀ i, i < n → stub (attempt + i) = .transientRateLimit) →
      summarizeFrom stub attempt n = ⟨n, 2 ^ attempt * (2 ^ n - 1), .exhausted⟩ := by
  intro n
  induction n with
  | zero => intro attempt _; simp [summarizeFrom_zero]
  | succ m ih =>
    intro attempt h
    have h0 : stub attempt = .transientRateLimit := by
      simpa using h 0 (Nat.succ_pos m)
    have hshift : ∀ i, i < m → stub (attempt + 1 + i) = .transientRateLimit := by
      intro i hi
      have h2 := h (i + 1) (by omega)
      rwa [show attempt + (i + 1) = attempt + 1 + i by omega] at h2
    rw [summarizeFrom_succ, h0]
    simp only [ih (attempt + 1) hshift, RetryTrace.mk.injEq]
    exact ⟨trivial, backoff_step attempt m, trivial⟩

/-- If the first `n` attempts fail transiently and attempt `n` succeeds
(with `n` within the loop bound), the loop returns the stripped response
after `n + 1` attempts and `2^0 + ... + 2^(n-1)` backoff (from attempt 0;
in general shifted by `attempt`). -/
theorem summarizeFrom_transient_then_success (stub : Nat → AttemptResult) :
    ∀ (n m attempt : Nat) (t : String), n < m →
      (∀ i, i < n → stub (attempt + i) = .transientRateLimit) →
      stub (attempt + n) = .success t →
      summarizeFrom stub attempt m = ⟨n + 1, 2 ^ attempt * (2 ^ n - 1), .ok (pyStrip t)⟩ := by
  intro n
  induction n with
  | zero =>
    intro m attempt t hm _ hs
    obtain ⟨m2, rfl⟩ : ∃ m2, m = m2 + 1 := ⟨m - 1, by omega⟩
    rw [summarizeFrom_succ, show stub attempt = .success t by simpa using hs]
    simp
  | succ k ih =>
    intro m attempt t hm h hs
    obtain ⟨m2, rfl⟩ : ∃ m2, m = m2 + 1 := ⟨m - 1, by omega⟩
    have h0 : stub attempt = .transientRateLimit := by
      simpa using h 0 (Nat.succ_pos k)
    have hshift : ∀ i, i < k → stub (attempt + 1 + i) = .transientRateLimit := by
      intro i hi
      have h2 := h (i + 1) (by omega)
      rwa [show attempt + (i + 1) = attempt + 1 + i by omega] at h2
    have hs2 : stub (attempt + 1 + k) = .success t := by
      rwa [show attempt + (k + 1) = attempt + 1 + k by omega] at hs
    rw [summarizeFrom_succ, h0]
    simp only [ih m2 (attempt + 1) t (by omega) hshift hs2, RetryTrace.mk.injEq]
    exact ⟨trivial, backoff_step attempt k, trivial⟩

/-- If the first `n` attempts fail transiently and attempt `n` fails with a
non-transient error (within the loop bound), the loop re-raises after
`n + 1` attempts with only the transient attempts' backoff slept. -/
theorem summarizeFrom_transient_then_raise (stub : Nat → AttemptResult) :
    ∀ (n m attempt : Nat), n < m →
      (∀ i, i < n → stub (attempt + i) = .transientRateLimit) →
      stub (attempt + n) = .otherError →
      summarizeFrom stub attempt m = ⟨n + 1, 2 ^ attempt * (2 ^ n - 1), .raised⟩ := by
  intro n
  induction n with
  | zero =>
    intro m attempt hm _ hs
    obtain ⟨m2, rfl⟩ : ∃ m2, m = m2 + 1 := ⟨m - 1, by omega⟩
    rw [summarizeFrom_succ, show stub attempt = .otherError by simpa using hs]
    simp
  | succ k ih =>
    intro m attempt hm h hs
    obtain ⟨m2, rfl⟩ : ∃ m2, m = m2 + 1 := ⟨m - 1, by omega⟩
    have h0 : stub attempt = .transientRateLimit := by
      simpa using h 0 (Nat.succ_pos k)
    have hshift : ∀ i, i < k → stub (attempt + 1 + i) = .transientRateLimit := by
      intro i hi
      have h2 := h (i + 1) (by omega)
      rwa [show attempt + (i + 1) = attempt + 1 + i by omega] at h2
    have hs2 : stub (attempt + 1 + k) = .otherError := by
      rwa [show attempt + (k + 1) = attempt + 1 + k by omega] at hs
    rw [summarizeFrom_succ, h0]
    simp only [ih m2 (attempt + 1) (by omega) hshift hs2, RetryTrace.mk.injEq]
    exact ⟨trivial, backoff_step attempt k, trivial⟩

/-! ### Lemmas: batch processing and export assembly -/

theorem all_fields_foldl (rows : List (Patent × FieldMap)) :
    ∀ st : BatchState,
      (rows.foldl (fun st pr => addRow st pr.1 pr.2) st).all_fields
        = ((rows.map (fun pr => pr.2.map Prod.fst)).flatten).foldl seenInsert st.all_fields := by
  induction rows with
  | nil => intro st; rfl
  | cons pr rest ih =>
    intro st
    rw [List.foldl_cons, ih, List.map_cons, List.flatten_cons, List.foldl_append]
    rw [show (addRow st pr.1 pr.2).all_fields = addFields st.all_fields pr.2 from rfl]
    rw [addFields_eq]

/-- The discovered dynamic field list is exactly the parsed labels across
all rows, deduplicated in first-appearance order. -/
theorem all_fields_processBatch (rows : List (Patent × FieldMap)) :
    (processBatch rows).all_fields
      = firstSeen ((rows.map (fun pr => pr.2.map Prod.fst)).flatten) := by
  unfold processBatch firstSeen
  exact all_fields_foldl rows ⟨[], []⟩

theorem export_data_foldl (rows : List (Patent × FieldMap)) :
    ∀ st : BatchState,
      (rows.foldl (fun st pr => addRow st pr.1 pr.2) st).export_data
        = st.export_data ++ rows.map (fun pr => dictUpdate (baseRow pr.1) pr.2) := by
  induction rows with
  | nil => intro st; simp
  | cons pr rest ih =>
    intro st
    rw [List.foldl_cons, ih, List.map_cons]
    rw [show (addRow st pr.1 pr.2).export_data
        = st.export_data ++ [dictUpdate (baseRow pr.1) pr.2] from rfl]
    simp

theorem export_data_processBatch (rows : List (Patent × FieldMap)) :
    (processBatch rows).export_data
      = rows.map (fun pr => dictUpdate (baseRow pr.1) pr.2) := by
  unfold processBatch
  rw [export_data_foldl]
  simp

/-- The keys of one assembled row: the three leading columns plus the
parsed labels of that row. -/
theorem keys_row (p : Patent) (fm : FieldMap) (x : String) :
    x ∈ (dictUpdate (baseRow p) fm).map Prod.fst ↔
      x ∈ ["Patent Number", "Title", "Abstract"] ∨ x ∈ fm.map Prod.fst := by
  rw [keys_dictUpdate]
  rw [show fm.foldl (fun fs q => seenInsert fs q.1) ((baseRow p).map Prod.fst)
      = (fm.map Prod.fst).foldl seenInsert ((baseRow p).map Prod.fst) from
    (List.foldl_map Prod.fst seenInsert fm ((baseRow p).map Prod.fst)).symm]
  rw [mem_foldl_seenInsert]
  rfl

theorem mem_dfColumns (rows : List FieldMap) (c : String) :
    c ∈ dfColumns rows ↔ ∃ r ∈ rows, c ∈ r.map Prod.fst := by
  unfold dfColumns
  rw [mem_firstSeen, List.mem_flatten]
  constructor
  · rintro ⟨ks, hks, hc⟩
    rcases List.mem_map.mp hks with ⟨r, hr, rfl⟩
    exact ⟨r, hr, hc⟩
  · rintro ⟨r, hr, hc⟩
    exact ⟨r.map Prod.fst, List.mem_map.mpr ⟨r, hr, rfl⟩, hc⟩

/-- With at least one row added, the reorder-and-filter step at app.py:177
keeps every column: the finalized column list is exactly `ordered_columns`
of the discovered fields. -/
theorem export_columns_processBatch (rows : List (Patent × FieldMap)) (h : rows ≠ []) :
    export_columns (processBatch rows) = ordered_columns (processBatch rows).all_fields := by
  unfold export_columns
  rw [List.filter_eq_self]
  intro c hc
  rw [decide_eq_true_eq, mem_dfColumns]
  rw [ordered_columns, List.mem_append] at hc
  rcases hc with hc | hc
  · rcases rows with _ | ⟨pr, rest⟩
    · exact absurd rfl h
    · refine ⟨dictUpdate (baseRow pr.1) pr.2, ?_, ?_⟩
      · rw [export_data_processBatch, List.map_cons]
        exact List.mem_cons_self _ _
      · rw [keys_row]
        exact Or.inl hc
  · rw [all_fields_processBatch, mem_firstSeen, List.mem_flatten] at hc
    rcases hc with ⟨ks, hks, hcks⟩
    rcases List.mem_map.mp hks with ⟨pr, hpr, rfl⟩
    refine ⟨dictUpdate (baseRow pr.1) pr.2, ?_, ?_⟩
    · rw [export_data_processBatch]
      exact List.mem_map.mpr ⟨pr, hpr, rfl⟩
    · rw [keys_row]
      exact Or.inr hcks

/-- `runBatch` step unfolding. -/
theorem runBatch_cons (endpoint : String → Nat → AttemptResult) (instruction : String)
    (p : Patent) (rest : List Patent) (st : BatchState) :
    runBatch endpoint instruction (p :: rest) st =
      match summarizeReturn endpoint p instruction with
      | .error e => .error e
      | .ok text => runBatch endpoint instruction rest (addRow st p (parse_dynamic_summary text)) := rfl

/-- When no record's completion re-raises, the batch loop runs to the end
and appends exactly one export row per record. -/
theorem runBatch_ok (endpoint : String → Nat → AttemptResult) (instruction : String) :
    ∀ (records : List Patent) (st : BatchState),
      (∀ p ∈ records, (summarize_patent endpoint p instruction).result ≠ .raised) →
      ∃ final, runBatch endpoint instruction records st = .ok final ∧
        final.export_data.length = st.export_data.length + records.length := by
  intro records
  induction records with
  | nil => intro st _; exact ⟨st, rfl, by simp⟩
  | cons p rest ih =>
    intro st h
    have hp := h p (List.mem_cons_self _ _)
    have hrest : ∀ q ∈ rest, (summarize_patent endpoint q instruction).result ≠ .raised :=
      fun q hq => h q (List.mem_cons_of_mem _ hq)
    rcases hres : (summarize_patent endpoint p instruction).result with t | _ | _
    · rcases ih (addRow st p (parse_dynamic_summary t)) hrest with ⟨final, hfin, hlen⟩
      refine ⟨final, ?_, ?_⟩
      · rw [runBatch_cons]
        simp only [summarizeReturn, hres]
        exact hfin
      · rw [hlen]
        rw [show (addRow st p (parse_dynamic_summary t)).export_data
            = st.export_data ++ [dictUpdate (baseRow p) (parse_dynamic_summary t)] from rfl]
        simp
        omega
    · rcases ih (addRow st p (parse_dynamic_summary "")) hrest with ⟨final, hfin, hlen⟩
      refine ⟨final, ?_, ?_⟩
      · rw [runBatch_cons]
        simp only [summarizeReturn, hres]
        exact hfin
      · rw [hlen]
        rw [show (addRow st p (parse_dynamic_summary "")).export_data
            = st.export_data ++ [dictUpdate (baseRow p) (parse_dynamic_summary "")] from rfl]
        simp
        omega
    · exact absurd hres hp

/-! ### Concrete fixtures for witnesses -/

/-- A fully populated record. -/
def patA : Patent := ⟨some "US1", some "Widget", some "A widget.", some "Claim 1", some "Desc"⟩

/-- A second record. -/
def patB : Patent := ⟨some "US2", some "Gadget", some "A gadget.", some "Claim 2", some "Desc2"⟩

/-- Endpoint that rate-limits on attempts 0-3 and succeeds on attempt 4. -/
def epTransThenOk : String → Nat → AttemptResult :=
  fun _ i => if i < 4 then .transientRateLimit else .success " hello "

/-- Endpoint that rate-limits on every attempt. -/
def epAllTrans : String → Nat → AttemptResult :=
  fun _ _ => .transientRateLimit

/-- Endpoint that rate-limits on attempts 0-1, then fails non-transiently. -/
def epRaiseAt2 : String → Nat → AttemptResult :=
  fun _ i => if i < 2 then .transientRateLimit else .otherError

/-- The R1/R2 batch of the specification's ExportAssembler example. -/
def exampleBatch : List (Patent × FieldMap) :=
  [(patA, [("A", "a1"), ("B", "b1")]), (patB, [("B", "b2"), ("C", "c2")])]

/-! ### Claim theorems -/

/-- C1: for every prompt, when the completion call rate-limits on the first
four attempts and succeeds on the fifth, `summarize_patent` returns the
successful (stripped) result, having made 5 attempts with total backoff
`2^0 + 2^1 + 2^2 + 2^3` time units (delay `2^attempt` between attempts). -/
theorem spec_c1 (endpoint : String → Nat → AttemptResult) (patent : Patent)
    (instruction_prompt t : String)
    (h : ∀ i, i < 4 →
      endpoint (build_final_prompt instruction_prompt patent) i = .transientRateLimit)
    (hs : endpoint (build_final_prompt instruction_prompt patent) 4 = .success t) :
    summarize_patent endpoint patent instruction_prompt
      = ⟨5, 2 ^ 0 + 2 ^ 1 + 2 ^ 2 + 2 ^ 3, .ok (pyStrip t)⟩ := by
  have htr := summarizeFrom_transient_then_success
    (endpoint (build_final_prompt instruction_prompt patent)) 4 5 0 t (by omega)
    (fun i hi => by simpa using h i hi) (by simpa using hs)
  rw [show summarize_patent endpoint patent instruction_prompt
      = summarizeFrom (endpoint (build_final_prompt instruction_prompt patent)) 0 5 from rfl,
    htr]
  rfl

theorem spec_c1_witness :
    (∀ i, i < 4 →
      epTransThenOk (build_final_prompt "Categorize." patA) i = .transientRateLimit)
    ∧ epTransThenOk (build_final_prompt "Categorize." patA) 4 = .success " hello "
    ∧ summarize_patent epTransThenOk patA "Categorize."
        = ⟨5, 2 ^ 0 + 2 ^ 1 + 2 ^ 2 + 2 ^ 3, .ok (pyStrip " hello ")⟩ :=
  ⟨fun i hi => by interval_cases i <;> rfl, rfl,
    spec_c1 epTransThenOk patA "Categorize." " hello "
      (fun i hi => by interval_cases i <;> rfl) rfl⟩

/-- C2: for every prompt, when every attempt rate-limits, `summarize_patent`
makes exactly 5 attempts, ends in exhaustion, and returns `""` ("no summary
produced") to the caller instead of raising; a batch in which no record's
completion re-raises therefore runs to completion with one export row per
record, this record included. -/
theorem spec_c2 (endpoint : String → Nat → AttemptResult) (patent : Patent)
    (instruction_prompt : String)
    (h : ∀ i, i < 5 →
      endpoint (build_final_prompt instruction_prompt patent) i = .transientRateLimit) :
    (summarize_patent endpoint patent instruction_prompt).attemptsMade = 5
    ∧ (summarize_patent endpoint patent instruction_prompt).result = .exhausted
    ∧ summarizeReturn endpoint patent instruction_prompt = .ok ""
    ∧ ∀ (pre post : List Patent) (st : BatchState),
        (∀ q ∈ pre ++ patent :: post,
          (summarize_patent endpoint q instruction_prompt).result ≠ .raised) →
        ∃ final, runBatch endpoint instruction_prompt (pre ++ patent :: post) st = .ok final
          ∧ final.export_data.length
              = st.export_data.length + (pre ++ patent :: post).length := by
  have htr : summarize_patent endpoint patent instruction_prompt
      = ⟨5, 2 ^ 0 * (2 ^ 5 - 1), .exhausted⟩ :=
    summarizeFrom_all_transient _ 5 0 (fun i hi => by simpa using h i hi)
  refine ⟨by rw [htr], by rw [htr], ?_, ?_⟩
  · simp only [summarizeReturn, htr]
  · intro pre post st hall
    exact runBatch_ok endpoint instruction_prompt _ st hall

theorem spec_c2_witness :
    (∀ i, i < 5 →
      epAllTrans (build_final_prompt "Categorize." patA) i = .transientRateLimit)
    ∧ (∀ q ∈ ([] : List Patent) ++ patA :: [patB],
        (summarize_patent epAllTrans q "Categorize.").result ≠ .raised)
    ∧ (summarize_patent epAllTrans patA "Categorize.").attemptsMade = 5
    ∧ summarizeReturn epAllTrans patA "Categorize." = .ok ""
    ∧ ∃ final, runBatch epAllTrans "Categorize." (([] : List Patent) ++ patA :: [patB])
          ⟨[], []⟩ = .ok final
        ∧ final.export_data.length = (⟨[], []⟩ : BatchState).export_data.length
            + (([] : List Patent) ++ patA :: [patB]).length := by
  have hmain := spec_c2 epAllTrans patA "Categorize." (fun _ _ => rfl)
  exact ⟨fun _ _ => rfl, by decide, hmain.1, hmain.2.2.1,
    hmain.2.2.2 [] [patB] ⟨[], []⟩ (by decide)⟩

/-- C5: for every prompt, when an attempt fails with a non-transient error
(after any number of transient failures before it), `summarize_patent`
makes no further attempts and re-raises: the caller sees the exception, not
an empty result. -/
theorem spec_c5 (endpoint : String → Nat → AttemptResult) (patent : Patent)
    (instruction_prompt : String) (n : Nat) (hn : n < 5)
    (h : ∀ i, i < n →
      endpoint (build_final_prompt instruction_prompt patent) i = .transientRateLimit)
    (he : endpoint (build_final_prompt instruction_prompt patent) n = .otherError) :
    (summarize_patent endpoint patent instruction_prompt).attemptsMade = n + 1
    ∧ (summarize_patent endpoint patent instruction_prompt).result = .raised
    ∧ summarizeReturn endpoint patent instruction_prompt = .error () := by
  have htr : summarize_patent endpoint patent instruction_prompt
      = ⟨n + 1, 2 ^ 0 * (2 ^ n - 1), .raised⟩ :=
    summarizeFrom_transient_then_raise _ n 5 0 hn
      (fun i hi => by simpa using h i hi) (by simpa using he)
  exact ⟨by rw [htr], by rw [htr], by simp only [summarizeReturn, htr]⟩

theorem spec_c5_witness :
    2 < 5
    ∧ (∀ i, i < 2 →
        epRaiseAt2 (build_final_prompt "Categorize." patA) i = .transientRateLimit)
    ∧ epRaiseAt2 (build_final_prompt "Categorize." patA) 2 = .otherError
    ∧ (summarize_patent epRaiseAt2 patA "Categorize.").attemptsMade = 2 + 1
    ∧ (summarize_patent epRaiseAt2 patA "Categorize.").result = .raised
    ∧ summarizeReturn epRaiseAt2 patA "Categorize." = .error () := by
  have hmain := spec_c5 epRaiseAt2 patA "Categorize." 2 (by omega)
    (fun i hi => by interval_cases i <;> rfl) rfl
  exact ⟨by omega, fun i hi => by interval_cases i <;> rfl, rfl,
    hmain.1, hmain.2.1, hmain.2.2⟩

/-- C10: for every prompt, when all 5 attempts rate-limit, the loop sleeps
after every failed attempt — including the last, even though no attempt
follows — so the total backoff before reporting exhaustion is
`2^0 + 2^1 + 2^2 + 2^3 + 2^4 = 31` time units. -/
theorem spec_c10 (endpoint : String → Nat → AttemptResult) (patent : Patent)
    (instruction_prompt : String)
    (h : ∀ i, i < 5 →
      endpoint (build_final_prompt instruction_prompt patent) i = .transientRateLimit) :
    summarize_patent endpoint patent instruction_prompt
      = ⟨5, 2 ^ 0 + 2 ^ 1 + 2 ^ 2 + 2 ^ 3 + 2 ^ 4, .exhausted⟩ := by
  have htr : summarize_patent endpoint patent instruction_prompt
      = ⟨5, 2 ^ 0 * (2 ^ 5 - 1), .exhausted⟩ :=
    summarizeFrom_all_transient _ 5 0 (fun i hi => by simpa using h i hi)
  rw [htr]
  rfl

theorem spec_c10_witness :
    (∀ i, i < 5 →
      epAllTrans (build_final_prompt "Categorize." patB) i = .transientRateLimit)
    ∧ summarize_patent epAllTrans patB "Categorize."
        = ⟨5, 2 ^ 0 + 2 ^ 1 + 2 ^ 2 + 2 ^ 3 + 2 ^ 4, .exhausted⟩ :=
  ⟨fun _ _ => rfl, spec_c10 epAllTrans patB "Categorize." (fun _ _ => rfl)⟩

/-- Spec-side rendering of the record's fields: the fixed-order labeled
block that follows the instruction template in the final prompt. -/
def fieldsRendering (r : Patent) : String :=
  "\n\nPatent Number: " ++ pget r.patent_Number ++
    "\nTitle: " ++ pget r.title ++
    "\nAbstract: " ++ pget r.abstract ++
    "\nClaims: " ++ pget r.claims ++
    "\nDescription: " ++ pget r.description ++ "\n"

/-- C7: `build_final_prompt` is a pure function of (template, record): it
always returns the instruction template verbatim (after the f-string's
leading newline) followed by the fixed-order labeled rendering of
identifier, title, abstract, claims, and description; a record with all
fields missing renders every field as the empty string, with no failure. -/
theorem spec_c7 :
    (∀ t r, build_final_prompt t r = ("\n" ++ t) ++ fieldsRendering r)
    ∧ fieldsRendering ⟨none, none, none, none, none⟩
        = "\n\nPatent Number: \nTitle: \nAbstract: \nClaims: \nDescription: \n"
    ∧ (∀ t, build_final_prompt t ⟨none, none, none, none, none⟩
        = ("\n" ++ t) ++ "\n\nPatent Number: \nTitle: \nAbstract: \nClaims: \nDescription: \n") := by
  have h1 : ∀ t r, build_final_prompt t r = ("\n" ++ t) ++ fieldsRendering r := by
    intro t r
    simp [build_final_prompt, fieldsRendering, String.append_assoc]
  have h2 : fieldsRendering ⟨none, none, none, none, none⟩
      = "\n\nPatent Number: \nTitle: \nAbstract: \nClaims: \nDescription: \n" := rfl
  exact ⟨h1, h2, fun t => by rw [h1, h2]⟩

/-- C3: the dynamic parser builds, by in-order dict insertion, exactly the
(label, value) pairs of the delimiter-carrying lines split at the first
colon with both sides trimmed (`linePairs`); its key order is the labels'
first-appearance order, a repeated label keeps its original position with
the later value winning (`lastWins`); the spec's concrete examples hold. -/
theorem spec_c3 (s : String) :
    parse_dynamic_summary s = dictUpdate [] (linePairs s)
    ∧ (parse_dynamic_summary s).map Prod.fst = firstSeen ((linePairs s).map Prod.fst)
    ∧ (∀ k, dictLookup (parse_dynamic_summary s) k = lastWins (linePairs s) k)
    ∧ parse_dynamic_summary "Industry Domain: Software\nTechnology Area: AI\n"
        = [("Industry Domain", "Software"), ("Technology Area", "AI")]
    ∧ parse_dynamic_summary "garbage no colon" = []
    ∧ parse_dynamic_summary "A: 1\nB: 2\nA: 3" = [("A", "3"), ("B", "2")] :=
  ⟨parse_eq_dictUpdate_linePairs s, keys_parse s, lookup_parse s, by rfl, by rfl, by rfl⟩

/-- C6: the dynamic parser is total over response strings, degrading
gracefully: the empty response yields the empty FieldMap, every extracted
label and value is whitespace-stripped (stripping is idempotent on them),
and a response with no delimiter at all yields the empty FieldMap rather
than an error. -/
theorem spec_c6 :
    parse_dynamic_summary "" = []
    ∧ (∀ s k v, (k, v) ∈ parse_dynamic_summary s → pyStrip k = k ∧ pyStrip v = v)
    ∧ (∀ s, (∀ c ∈ s.data, c ≠ ':') → parse_dynamic_summary s = []) :=
  ⟨rfl, parse_values_stripped, parse_of_no_colon⟩

theorem spec_c6_witness :
    (("A", "1") ∈ parse_dynamic_summary " A :  1 "
      ∧ pyStrip "A" = "A" ∧ pyStrip "1" = "1")
    ∧ ((∀ c ∈ ("no delimiter here" : String).data, c ≠ ':')
      ∧ parse_dynamic_summary "no delimiter here" = []) := by
  refine ⟨⟨by decide, ?_, ?_⟩, by decide, ?_⟩
  · exact (spec_c6.2.1 " A :  1 " "A" "1" (by decide)).1
  · exact (spec_c6.2.1 " A :  1 " "A" "1" (by decide)).2
  · exact spec_c6.2.2 "no delimiter here" (by decide)

/-- C8: the fixed-schema policy (modelled from the spec, §4.3) applied to
the empty response yields all four hard-coded keys, each with the empty
value. -/
theorem spec_c8 :
    parse_fixed_summary "" =
      [("Industry Domain", ""), ("Technology Area", ""),
       ("Sub-Technology Area", ""), ("Keywords", "")]
    ∧ ∀ lab ∈ fixedLabels, dictLookup (parse_fixed_summary "") lab = some "" := by
  refine ⟨by rfl, ?_⟩
  intro lab hlab
  fin_cases hlab <;> rfl

/-- C4: for every nonempty sequence of (record, FieldMap) pairs processed
in order, the finalized column list is [identifier, title, abstract]
followed by the dynamic field names in first-seen order across all rows,
regardless of which row introduced them; in the R1 {A,B} then R2 {B,C}
example the columns are [Patent Number, Title, Abstract, A, B, C], R1's C
cell is empty and R2's A cell is empty. -/
theorem spec_c4 (rows : List (Patent × FieldMap)) (h : rows ≠ []) :
    export_columns (processBatch rows)
      = ["Patent Number", "Title", "Abstract"]
        ++ firstSeen ((rows.map (fun pr => pr.2.map Prod.fst)).flatten)
    ∧ export_columns (processBatch exampleBatch)
        = ["Patent Number", "Title", "Abstract", "A", "B", "C"]
    ∧ cellValue ((processBatch exampleBatch).export_data.getD 0 []) "C" = none
    ∧ cellValue ((processBatch exampleBatch).export_data.getD 1 []) "A" = none := by
  refine ⟨?_, by rfl, by rfl, by rfl⟩
  rw [export_columns_processBatch rows h, all_fields_processBatch]
  rfl

theorem spec_c4_witness :
    exampleBatch ≠ []
    ∧ export_columns (processBatch exampleBatch)
        = ["Patent Number", "Title", "Abstract"]
          ++ firstSeen ((exampleBatch.map (fun pr => pr.2.map Prod.fst)).flatten) :=
  ⟨by decide, (spec_c4 exampleBatch (by decide)).1⟩

/-- C9: when a record's parsed FieldMap carries one of the three leading
column names (here, its last occurrence in the parsed pairs), the
assembled row's cell for that column is the parsed value — the
`row_data.update(parsed)` overwrite — and the name is also appended to the
dynamic field list, so `ordered_columns` lists that name twice. -/
theorem spec_c9 (p : Patent) (name v : String) (fm1 fm2 : FieldMap)
    (hname : name ∈ ["Patent Number", "Title", "Abstract"])
    (hnotlater : name ∉ fm2.map Prod.fst) :
    cellValue (dictUpdate (baseRow p) (fm1 ++ (name, v) :: fm2)) name = some v
    ∧ (ordered_columns (addFields [] (fm1 ++ (name, v) :: fm2))).count name = 2 := by
  constructor
  · unfold cellValue
    rw [dictLookup_dictUpdate]
    have hlw : lastWins (fm1 ++ (name, v) :: fm2) name = some v := by
      unfold lastWins
      rw [List.reverse_append, List.reverse_cons, List.find?_append, List.find?_append]
      have hnone : fm2.reverse.find? (fun q => decide (q.1 = name)) = none := by
        rw [List.find?_eq_none]
        intro x hx
        simp only [decide_eq_true_eq]
        intro heq
        exact hnotlater (List.mem_map.mpr ⟨x, List.mem_reverse.mp hx, heq⟩)
      rw [hnone]
      simp [Option.or, List.find?_cons]
    rw [hlw]
    simp [Option.or]
  · rw [ordered_columns, List.count_append]
    have hbase : (["Patent Number", "Title", "Abstract"] : List String).count name = 1 := by
      simp only [List.mem_cons, List.not_mem_nil, or_false] at hname
      rcases hname with rfl | rfl | rfl <;> rfl
    have haf : (addFields [] (fm1 ++ (name, v) :: fm2)).count name = 1 := by
      apply List.count_eq_one_of_mem (nodup_addFields [] _ List.nodup_nil)
      rw [mem_addFields]
      right
      rw [List.map_append, List.map_cons]
      exact List.mem_append.mpr (Or.inr (List.mem_cons_self _ _))
    rw [hbase, haf]

theorem spec_c9_witness :
    ("Title" ∈ (["Patent Number", "Title", "Abstract"] : List String))
    ∧ ("Title" ∉ ([("K", "Y")] : FieldMap).map Prod.fst)
    ∧ cellValue (dictUpdate (baseRow patA) ([] ++ ("Title", "X") :: [("K", "Y")])) "Title"
        = some "X"
    ∧ (ordered_columns (addFields [] ([] ++ ("Title", "X") :: [("K", "Y")]))).count "Title"
        = 2 := by
  have hmain := spec_c9 patA "Title" "X" [] [("K", "Y")] (by decide) (by decide)
  exact ⟨by decide, by decide, hmain.1, hmain.2⟩
